import Mathlib

/-!
Verification of the image-compositing pipeline of `cellprofiler/gui/cpfigure.py`
(`log_transform`, `auto_contrast`, `match_rgbmask_to_image`,
`CPFigureFrame.normalize_image`).

Pixel values are IEEE-754 floats in the source.  We model them by the type
`FV` below: `nan`, `pinf` (+infinity), `ninf` (-infinity) or a finite rational.
Arithmetic and comparisons follow the IEEE rules numpy implements (every
comparison with NaN is false, NaN propagates through arithmetic,
`inf - inf = nan`, `0 * inf = nan`, ...), with exact rationals standing in for
the finite floats (float rounding is not modelled; none of the verified
properties depends on rounding).

2-D arrays are `List (List FV)` in row-major (C) order, matching numpy's
iteration/flattening order.  Code that can raise a Python exception that
escapes the function (e.g. `np.min`/`np.max` of an empty array) is modelled in
the `Except String` monad; `log_transform`'s internal `try/except` swallows
every exception, so it is modelled as a total function.
-/

/-! ### Kernel-computable rational arithmetic

The Batteries implementations of `Rat.add`, `Rat.sub`, `Rat.mul` and `Rat.inv`
are `@[irreducible]`, so `decide` cannot evaluate them.  The pipeline needs to
be evaluated on concrete inputs, so we define the four operations through
`mkRat` (which does reduce) and prove them equal to the standard ones. -/

/-- Rational addition, computable by the kernel (equals `a + b`). -/
def qadd (a b : ℚ) : ℚ := mkRat (a.num * b.den + b.num * a.den) (a.den * b.den)

/-- Rational multiplication, computable by the kernel (equals `a * b`). -/
def qmul (a b : ℚ) : ℚ := mkRat (a.num * b.num) (a.den * b.den)

/-- Rational inverse, computable by the kernel (equals `b⁻¹`, with `0⁻¹ = 0`). -/
def qinv (b : ℚ) : ℚ := mkRat (b.den * b.num.sign) b.num.natAbs

/-- Rational division, computable by the kernel (equals `a / b`). -/
def qdiv (a b : ℚ) : ℚ := qmul a (qinv b)

/-- Rational subtraction, computable by the kernel (equals `a - b`). -/
def qsub (a b : ℚ) : ℚ := qadd a (-b)

theorem qadd_eq (a b : ℚ) : qadd a b = a + b := by
  have ha : (a.den : ℚ) ≠ 0 := Nat.cast_ne_zero.mpr a.den_nz
  have hb : (b.den : ℚ) ≠ 0 := Nat.cast_ne_zero.mpr b.den_nz
  rw [qadd, Rat.mkRat_eq_div]
  push_cast
  conv_rhs => rw [← Rat.num_div_den a, ← Rat.num_div_den b]
  rw [div_add_div _ _ ha hb]
  ring_nf

theorem qmul_eq (a b : ℚ) : qmul a b = a * b := by
  rw [qmul, Rat.mkRat_eq_div]
  push_cast
  conv_rhs => rw [← Rat.num_div_den a, ← Rat.num_div_den b]
  rw [div_mul_div_comm]

theorem qinv_eq (b : ℚ) : qinv b = b⁻¹ := by
  rw [qinv, Rat.mkRat_eq_div, Rat.inv_def', Rat.divInt_eq_div]
  rcases lt_trichotomy b.num 0 with h | h | h
  · rw [Int.sign_eq_neg_one_of_neg h]
    rw [Int.cast_natAbs]
    push_cast [abs_of_neg h]
    ring_nf
  · rw [h]
    simp
  · rw [Int.sign_eq_one_of_pos h]
    rw [Int.cast_natAbs]
    push_cast [abs_of_pos h]
    ring_nf

theorem qdiv_eq (a b : ℚ) : qdiv a b = a / b := by
  rw [qdiv, qmul_eq, qinv_eq, div_eq_mul_inv]

theorem qsub_eq (a b : ℚ) : qsub a b = a - b := by
  rw [qsub, qadd_eq, sub_eq_add_neg]

/-- A numpy floating-point scalar: NaN, +inf, -inf or a finite value
(modelled as an exact rational). -/
inductive FV where
  | nan : FV
  | pinf : FV
  | ninf : FV
  | fin : ℚ → FV
  deriving DecidableEq, Repr

namespace FV

/-- `np.isnan`. -/
def isNaN : FV → Bool
  | nan => true
  | _ => false

/-- `np.isfinite`. -/
def isFinite : FV → Bool
  | fin _ => true
  | _ => false

/-- IEEE `<` as numpy evaluates it: any comparison with NaN is false. -/
def lt : FV → FV → Bool
  | nan, _ => false
  | _, nan => false
  | ninf, ninf => false
  | ninf, _ => true
  | _, ninf => false
  | pinf, _ => false
  | fin _, pinf => true
  | fin a, fin b => a < b

/-- IEEE `<=`: false whenever an operand is NaN. -/
def le (a b : FV) : Bool := lt a b || (a == b && !a.isNaN)

/-- IEEE negation. -/
def neg : FV → FV
  | nan => nan
  | pinf => ninf
  | ninf => pinf
  | fin q => fin (-q)

/-- IEEE addition (NaN propagates, `inf + (-inf) = nan`). -/
def add : FV → FV → FV
  | nan, _ => nan
  | _, nan => nan
  | pinf, ninf => nan
  | ninf, pinf => nan
  | pinf, _ => pinf
  | _, pinf => pinf
  | ninf, _ => ninf
  | _, ninf => ninf
  | fin a, fin b => fin (qadd a b)

/-- IEEE subtraction (`a - b = a + (-b)`; `inf - inf = nan`). -/
def sub (a b : FV) : FV := add a (neg b)

/-- IEEE multiplication (`0 * inf = nan`, sign rules for infinities). -/
def mul : FV → FV → FV
  | nan, _ => nan
  | _, nan => nan
  | pinf, pinf => pinf
  | pinf, ninf => ninf
  | ninf, pinf => ninf
  | ninf, ninf => pinf
  | pinf, fin q => if 0 < q then pinf else if q < 0 then ninf else nan
  | fin q, pinf => if 0 < q then pinf else if q < 0 then ninf else nan
  | ninf, fin q => if 0 < q then ninf else if q < 0 then pinf else nan
  | fin q, ninf => if 0 < q then ninf else if q < 0 then pinf else nan
  | fin a, fin b => fin (qmul a b)

/-- IEEE division as numpy computes it (`x/0 = ±inf`, `0/0 = nan`,
`inf/inf = nan`, `finite/inf = 0`). -/
def div : FV → FV → FV
  | nan, _ => nan
  | _, nan => nan
  | pinf, pinf => nan
  | pinf, ninf => nan
  | ninf, pinf => nan
  | ninf, ninf => nan
  | fin _, pinf => fin 0
  | fin _, ninf => fin 0
  | pinf, fin q => if 0 ≤ q then pinf else ninf
  | ninf, fin q => if 0 ≤ q then ninf else pinf
  | fin a, fin b =>
      if b = 0 then (if 0 < a then pinf else if a < 0 then ninf else nan)
      else fin (qdiv a b)

/-- `np.minimum` on two scalars (the reduction step of `ndarray.min()`):
NaN propagates. -/
def min2 : FV → FV → FV
  | nan, _ => nan
  | _, nan => nan
  | a, b => if lt b a then b else a

/-- `np.maximum` on two scalars (the reduction step of `ndarray.max()`):
NaN propagates. -/
def max2 : FV → FV → FV
  | nan, _ => nan
  | _, nan => nan
  | a, b => if lt a b then b else a

/-- `np.clip(v, lo, hi)` on a scalar, as numpy computes it:
`min(max(v, lo), hi)`. -/
def clip (v lo hi : FV) : FV := min2 (max2 v lo) hi

end FV

/-- Decidable equality of `Except` results (needed to evaluate the embedded
fallible functions on concrete inputs). -/
instance {ε α : Type} [DecidableEq ε] [DecidableEq α] :
    DecidableEq (Except ε α) := fun x y =>
  match x, y with
  | .ok a, .ok b =>
      if h : a = b then .isTrue (by rw [h])
      else .isFalse (fun hc => by cases hc; exact h rfl)
  | .error a, .error b =>
      if h : a = b then .isTrue (by rw [h])
      else .isFalse (fun hc => by cases hc; exact h rfl)
  | .ok _, .error _ => .isFalse (fun hc => by cases hc)
  | .error _, .ok _ => .isFalse (fun hc => by cases hc)

/-- A 2-D pixel array (row-major, matching numpy's C order). -/
abbrev Mat := List (List FV)

/-- The elements of a 2-D array in C (row-major) order, as `ndarray.flatten`
and boolean indexing enumerate them. -/
def flat2 (m : Mat) : List FV := m.flatMap id

/-- Elementwise map over a 2-D array. -/
def map2 (f : FV → FV) (m : Mat) : Mat := m.map (fun r => r.map f)

/-- `ndarray.min()` of a 1-D list: numpy raises
`ValueError: zero-size array to reduction operation` on an empty array and
otherwise reduces with NaN-propagating `minimum` in element order. -/
def npMinE (l : List FV) : Except String FV :=
  match l with
  | [] => .error "zero-size array to reduction operation minimum"
  | x :: xs => .ok (xs.foldl FV.min2 x)

/-- `ndarray.max()` of a 1-D list (raises on an empty array). -/
def npMaxE (l : List FV) : Except String FV :=
  match l with
  | [] => .error "zero-size array to reduction operation maximum"
  | x :: xs => .ok (xs.foldl FV.max2 x)

/-! ## `log_transform` (cpfigure.py lines 54-65)

```
def log_transform(im):
    orig = im
    try:
        im = im.copy()
        im[np.isnan(im)] = 0
        (min, max) = (im[im > 0].min(), im[np.isfinite(im)].max())
        if (max > min) and (max > 0):
            return (np.log(im.clip(min, max)) - np.log(min)) / (np.log(max) - np.log(min))
    except:
        pass
    return orig
```

The bare `except: pass` swallows every exception (in particular the
`ValueError` from reducing an empty selection), so the function is total and
returns the original array on any failure.  `np.log` is external library code;
since the exact logarithm of a rational is irrational, the embedding takes the
logarithm function `lg : ℚ → ℚ` as an explicit parameter (it is applied only
to positive finite values).  None of the verified properties constrains `lg`.
-/

/-- The NaN-zeroing `im[np.isnan(im)] = 0` of `log_transform` on one scalar
(applied to a copy of the input). -/
def cleanNaNv (v : FV) : FV := if v.isNaN then FV.fin 0 else v

/-- The NaN-zeroing step `im[np.isnan(im)] = 0` of `log_transform`
(applied to a copy of the input). -/
def cleanNaN (im : Mat) : Mat := map2 cleanNaNv im

/-- The rescale `(log(im.clip(mn, mx)) - log(mn)) / (log(mx) - log(mn))`
on one scalar.  Division follows IEEE rules (`FV.div`) because with a
degenerate `lg` the denominator can be zero.  The clipped value is finite
whenever `mn` and `mx` are (which is the only way `log_transform` calls it). -/
def logRescale (lg : ℚ → ℚ) (mn mx : ℚ) (v : FV) : FV :=
  match FV.clip v (FV.fin mn) (FV.fin mx) with
  | FV.fin q => FV.div (FV.fin (qsub (lg q) (lg mn))) (FV.fin (qsub (lg mx) (lg mn)))
  | w => FV.div (FV.sub w (FV.fin (lg mn))) (FV.fin (qsub (lg mx) (lg mn)))

/-- `log_transform` is an elementwise transform chosen from whole-array
statistics.  `logTransformF` computes that elementwise function from the
flattened array: the first component is the per-scalar map, the second
records whether the fallback `return orig` was taken (in which case the
function returns its argument object itself, not a copy — this aliasing
matters for the mutation analysis of `normalize_image`). -/
def logTransformF (lg : ℚ → ℚ) (flat : List FV) : (FV → FV) × Bool :=
  let flatC := flat.map cleanNaNv
  match flatC.filter (fun v => FV.lt (FV.fin 0) v) with
  | [] => (id, true)     -- `im[im > 0].min()` raised; caught by `except`
  | p :: ps =>
      match flatC.filter FV.isFinite with
      | [] => (id, true) -- `im[np.isfinite(im)].max()` raised; caught
      | f :: fs =>
          let mn := ps.foldl FV.min2 p
          let mx := fs.foldl FV.max2 f
          if FV.lt mn mx && FV.lt (FV.fin 0) mx then
            match mn, mx with
            | FV.fin a, FV.fin b =>
                (fun v => logRescale lg a b (cleanNaNv v), false)
            | _, _ => (id, true)  -- unreachable: mn, mx are finite here
          else (id, true)

/-- `log_transform` (cpfigure.py lines 54-65) on a 2-D array. -/
def log_transform (lg : ℚ → ℚ) (im : Mat) : Mat :=
  map2 (logTransformF lg (flat2 im)).1 im

/-! ## `auto_contrast` (cpfigure.py lines 67-78)

```
def auto_contrast(im):
    im = im.copy()
    if np.prod(im.shape) == 0:
        return im
    (min, max) = (im.min(), im.max())
    # Check that the image isn't binary
    if np.any((im>min)&(im<max)):
        im -= im.min()
        if im.max() > 0:
            im /= im.max()
    return im
```

`np.prod(im.shape) == 0` holds exactly when the (rectangular) array has no
elements, which for the list model is `flat2 im = []`.  The reductions after
that guard act on a non-empty array and cannot raise, but they are modelled
with the raising `npMinE`/`npMaxE` so that the guard's role is visible.
`auto_contrast`, too, applies an elementwise function chosen from whole-array
statistics; `autoContrastF` computes it from the flattened array. -/
def autoContrastF (flat : List FV) : Except String (FV → FV) := do
  if flat = [] then
    return id
  let mn ← npMinE flat
  let mx ← npMaxE flat
  if flat.any (fun v => FV.lt mn v && FV.lt v mx) then
    -- `im -= im.min()` (the min of `im` is still `mn` here)
    let flat1 := flat.map (fun v => FV.sub v mn)
    -- `if im.max() > 0: im /= im.max()` (the max of the subtracted array)
    let mx1 ← npMaxE flat1
    if FV.lt (FV.fin 0) mx1 then
      return (fun v => FV.div (FV.sub v mn) mx1)
    else
      return (fun v => FV.sub v mn)
  else
    return id

/-- `auto_contrast` (cpfigure.py lines 67-78) on a 2-D array. -/
def auto_contrast (im : Mat) : Except String Mat := do
  let f ← autoContrastF (flat2 im)
  return map2 f im

-- quick sanity examples (concrete evaluations of the embedded code)
example : auto_contrast [[FV.fin 0, FV.fin 5], [FV.fin 0, FV.fin 0]] =
    .ok [[FV.fin 0, FV.fin 5], [FV.fin 0, FV.fin 0]] := by decide

example : auto_contrast [[FV.fin 1, FV.fin 2, FV.fin 5]] =
    .ok [[FV.fin 0, FV.fin (mkRat 1 4), FV.fin 1]] := by decide

example : log_transform id [[FV.pinf, FV.fin 1, FV.fin 2]] =
    [[FV.fin 1, FV.fin 0, FV.fin 1]] := by decide

example : log_transform id [[FV.nan, FV.fin 0]] = [[FV.nan, FV.fin 0]] := by
  decide

/-! ## The image model

`normalize_image` receives either a 2-D (grayscale) or a 3-D
(height × width × channel) float array.  A 3-D array is a list of rows of
pixels (each pixel a list of channel values) together with its channel count
`nch`: numpy stores the full shape in the array header, so `shape[2]` is
defined even when there are zero rows, and the model carries it explicitly. -/

/-- A 3-D (height × width × channel) array without its channel count. -/
abbrev Vol := List (List (List FV))

/-- The elements of a 3-D array in C order. -/
def flat3 (d : Vol) : List FV := d.flatMap (fun r => r.flatMap id)

/-- Elementwise map over a 3-D array. -/
def map3 (f : FV → FV) (d : Vol) : Vol :=
  d.map (fun r => r.map (fun p => p.map f))

/-- A 2-D or 3-D pixel array, as dispatched on `ndim` by the source. -/
inductive Img where
  | gray : Mat → Img
  | color : ℕ → Vol → Img
  deriving DecidableEq, Repr

/-- `is_color_image` (cpfigure.py line 80):
`im.ndim == 3 and im.shape[2] >= 2`. -/
def is_color_image : Img → Bool
  | .gray _ => false
  | .color nch _ => 2 ≤ nch

/-- `auto_contrast` applied to a 3-D array (the source applies it to the
whole array when `normalize == True` but `is_color_image` is false, which
happens for single-channel 3-D arrays; numpy's reductions and elementwise
operations are shape-agnostic). -/
def auto_contrast3 (d : Vol) : Except String Vol := do
  let f ← autoContrastF (flat3 d)
  return map3 f d

/-- `log_transform` applied to a 3-D array (same situation as
`auto_contrast3`). -/
def log_transform3 (lg : ℚ → ℚ) (d : Vol) : Vol :=
  map3 (logTransformF lg (flat3 d)).1 d

/-- The channel slice `image[:, :, ch]` of a 3-D array. -/
def channelOf (d : Vol) (ch : ℕ) : Mat :=
  d.map (fun r => r.map (fun p => p.getD ch (FV.fin 0)))

/-- `np.dstack` of one transformed 2-D array per channel, re-assembled on the
shape of `d` (elementwise transforms preserve the shape, so indexing the
stacked arrays positionally reconstructs the pixels). -/
def restack (d : Vol) (mats : List Mat) : Vol :=
  d.mapIdx (fun i r => r.mapIdx (fun j _ =>
    mats.map (fun m => (m.getD i []).getD j (FV.fin 0))))

/-- The contrast step of `normalize_image` (cpfigure.py lines 1340-1351):
```
if normalize == True:
    if is_color_image(image):
        image = np.dstack([auto_contrast(image[:,:,ch])
                           for ch in range(image.shape[2])])
    else:
        image = auto_contrast(image)
elif normalize == 'log':
    ... same with log_transform ...
```
The `normalize` keyword is `True`, `'log'`, or anything else (treated as
no-op; the GUI passes `False`). -/
inductive NormMode where
  | norm : NormMode   -- `normalize == True`
  | log : NormMode    -- `normalize == 'log'`
  | raw : NormMode    -- any other value: no contrast transform
  deriving DecidableEq, Repr

def contrastStage (lg : ℚ → ℚ) (mode : NormMode) (image : Img) :
    Except String Img := do
  match mode with
  | .norm =>
      if is_color_image image then
        match image with
        | .color nch d => do
            let mats ← (List.range nch).mapM (fun ch => auto_contrast (channelOf d ch))
            return Img.color nch (restack d mats)
        | .gray m => do  -- unreachable: is_color_image is false on gray
            let r ← auto_contrast m
            return Img.gray r
      else
        match image with
        | .gray m => do
            let r ← auto_contrast m
            return Img.gray r
        | .color nch d => do
            let r ← auto_contrast3 d
            return Img.color nch r
  | .log =>
      if is_color_image image then
        match image with
        | .color nch d =>
            return Img.color nch (restack d ((List.range nch).map
              (fun ch => log_transform lg (channelOf d ch))))
        | .gray m => return Img.gray (log_transform lg m)
      else
        match image with
        | .gray m => return Img.gray (log_transform lg m)
        | .color nch d => return Img.color nch (log_transform3 lg d)
  | .raw => return image

/-- `match_rgbmask_to_image` (cpfigure.py lines 150-156): truncate the mask to
the channel count, then right-pad with weight 1. -/
def match_rgbmask_to_image (rgb_mask : List ℚ) (nchannels : ℕ) : List ℚ :=
  let m := rgb_mask.take nchannels          -- `del rgb_mask[nchannels:]`
  m ++ List.replicate (nchannels - m.length) 1

/-- The channel-mask step of `normalize_image` (cpfigure.py lines 1353-1360):
```
if is_color_image(image):
    rgb_mask = match_rgbmask_to_image(rgb_mask, image)
    image *= rgb_mask
    if image.shape[2] == 2:
        image = np.dstack([image[:,:,0], image[:,:,1],
                           np.zeros(image.shape[:2], image.dtype)])
```
`image *= rgb_mask` broadcasts the per-channel weights over the pixels. -/
def rgbMaskMul (rgb_mask : List ℚ) (nch : ℕ) (d : Vol) : Vol :=
  let m := match_rgbmask_to_image rgb_mask nch
  d.map (fun r => r.map (fun p =>
    List.zipWith (fun v w => FV.mul v (FV.fin w)) p m))

def applyRgbMask (rgb_mask : List ℚ) (nch : ℕ) (d : Vol) : ℕ × Vol :=
  let d1 := rgbMaskMul rgb_mask nch d
  if nch = 2 then
    (3, d1.map (fun r => r.map (fun p =>
      [p.getD 0 (FV.fin 0), p.getD 1 (FV.fin 0), FV.fin 0])))
  else
    (nch, d1)

def rgbMaskStage (rgb_mask : List ℚ) (image : Img) : Img :=
  match image with
  | .gray m => .gray m
  | .color nch d =>
      let (nch', d') := applyRgbMask rgb_mask nch d
      .color nch' d'

/-! ## Colormap application (external matplotlib code)

Modelled from the spec: `matplotlib.cm.ScalarMappable.to_rgba` is external
library code.  §4.3 Colormap Applier: "Values are linearly mapped from
`[vmin, vmax]` into the colormap's domain and the RGB (dropping alpha) triple
is returned per pixel. Bounds: if unspecified, use the array's own min/max".
The colormap itself is an abstract function `ℚ → RGB` (Glossary: "a named
function mapping a scalar in [0,1] ... to an RGB color triple"); out-of-range
scalars use the edge colors (matplotlib's default over/under colors), NaN the
'bad' color (transparent black), and equal bounds map everything to 0,
following matplotlib's `Normalize`. -/
structure RGB where
  r : ℚ
  g : ℚ
  b : ℚ
  deriving DecidableEq, Repr

abbrev CMap := ℚ → RGB

/-- An RGB triple as a pixel (the `[:, :, :3]` of the rgba output). -/
def RGB.pix (c : RGB) : List FV := [FV.fin c.r, FV.fin c.g, FV.fin c.b]

/-- `matplotlib.colors.Normalize` on one scalar: `(v - vmin)/(vmax - vmin)`,
with everything mapped to 0 when the limits coincide. -/
def mplNorm (vmin vmax v : FV) : FV :=
  if vmin = vmax then FV.fin 0
  else FV.div (FV.sub v vmin) (FV.sub vmax vmin)

def clamp01 (t : ℚ) : ℚ := if t < 0 then 0 else if 1 < t then 1 else t

/-- One scalar through `ScalarMappable.to_rgba` (normalize, then look the
colormap up, clamping to the edge colors; NaN gives the 'bad' color). -/
def scalarToRGB (cmap : CMap) (vmin vmax v : FV) : List FV :=
  match mplNorm vmin vmax v with
  | FV.nan => [FV.fin 0, FV.fin 0, FV.fin 0]
  | FV.pinf => (cmap 1).pix
  | FV.ninf => (cmap 0).pix
  | FV.fin t => (cmap (clamp01 t)).pix

/-- `mappable.set_clim(vmin, vmax); mappable.to_rgba(image)[:,:,:3]` on a 2-D
array, with matplotlib's autoscaling (`autoscale_None`) to the data min/max
when a limit is `None` — which raises on an empty array, like the reductions
it performs. -/
def to_rgba_gray (cmap : CMap) (vmin vmax : Option ℚ) (m : Mat) :
    Except String Vol := do
  let vminF ← match vmin with
    | some q => pure (FV.fin q)
    | none => npMinE (flat2 m)
  let vmaxF ← match vmax with
    | some q => pure (FV.fin q)
    | none => npMaxE (flat2 m)
  return m.map (fun r => r.map (scalarToRGB cmap vminF vmaxF))

/-- The colormap step of `normalize_image` (cpfigure.py lines 1362-1364):
```
if not is_color_image(image):
    mappable = matplotlib.cm.ScalarMappable(cmap=colormap)
    mappable.set_clim(vmin, vmax)
    image = mappable.to_rgba(image)[:,:,:3]
```
`to_rgba` of a 3-D single-channel array raises in matplotlib (the third
dimension must be 3 or 4), hence the error case. -/
def toRgbaStage (cmap : CMap) (vmin vmax : Option ℚ) (image : Img) :
    Except String Img := do
  if is_color_image image then
    return image
  else
    match image with
    | .gray m => do
        let d ← to_rgba_gray cmap vmin vmax m
        return Img.color 3 d
    | .color _ _ => .error "to_rgba: third dimension must be 3 or 4"

/-! ## Label layers (the `cplabels` dictionaries) -/

/-- An integer label matrix (0 = background, >0 = object id). -/
abbrev LabelMat := List (List ℕ)

/-- The `CPLD_MODE` value: `"outlines"`, `"alpha"` or `"none"`.  The source
compares against `CPLDM_NONE` first and against `CPLDM_OUTLINES` inside the
per-mask loop, treating every other value like alpha mode. -/
inductive CPLMode where
  | outlines : CPLMode
  | alpha : CPLMode
  | none : CPLMode
  deriving DecidableEq, Repr

/-- One `cplabels` dictionary. -/
structure CPLabel where
  labels : List LabelMat      -- CPLD_LABELS
  mode : CPLMode              -- CPLD_MODE
  outline_color : List ℚ      -- CPLD_OUTLINE_COLOR, components in 0..255
  line_width : ℚ              -- CPLD_LINE_WIDTH
  alpha_colormap : CMap       -- CPLD_ALPHA_COLORMAP
  alpha_value : ℚ             -- CPLD_ALPHA_VALUE

/-- `np.max` of an integer label matrix (raises on an empty array). -/
def npMaxNatE (m : LabelMat) : Except String ℕ :=
  match m.flatMap id with
  | [] => .error "zero-size array to reduction operation maximum"
  | x :: xs => .ok (xs.foldl Nat.max x)

/-- `ltotal = sum([np.max(labels) for labels in cplabel[CPLD_LABELS]])`. -/
def ltotalE (masks : List LabelMat) : Except String ℕ := do
  let maxes ← masks.mapM npMaxNatE
  return maxes.sum

/-- The label value at integer coordinates, with out-of-bounds reads giving
background (0). -/
def labelAt (m : LabelMat) (i j : ℤ) : ℕ :=
  if i < 0 ∨ j < 0 then 0 else ((m.getD i.toNat []).getD j.toNat 0)

/-- The 8-neighbourhood offsets. -/
def neighbors8 : List (ℤ × ℤ) :=
  [(-1, -1), (-1, 0), (-1, 1), (0, -1), (0, 1), (1, -1), (1, 0), (1, 1)]

/-- Modelled from the spec: `cellprofiler.cpmath.outline.outline` is imported
from `cellprofiler.cpmath`, which is not part of this repository's sources.
Per §4.4 the outline is "a binary outline (pixels adjacent to a
label/background transition) via a boundary-detection algorithm": a pixel
keeps its (nonzero) label when some 8-neighbour (out-of-bounds treated as
background) carries a different value, and becomes 0 otherwise. -/
def outline (m : LabelMat) : LabelMat :=
  m.mapIdx (fun i r => r.mapIdx (fun j v =>
    if v ≠ 0 ∧ neighbors8.any
        (fun d => labelAt m ((i : ℤ) + d.1) ((j : ℤ) + d.2) ≠ v) then v
    else 0))

/-- `lo = cellprofiler.cpmath.outline.outline(labels) != 0` as a boolean
matrix. -/
def loBool (labels : LabelMat) : List (List Bool) :=
  (outline labels).map (fun r => r.map (fun v => v ≠ 0))

/-- `lo = lo.astype(float)`. -/
def loFloat (labels : LabelMat) : Mat :=
  (loBool labels).map (fun r => r.map (fun b => if b then FV.fin 1 else FV.fin 0))

/-- The coordinates of the zero (background) elements of a boolean matrix. -/
def zeroCoords (b : List (List Bool)) : List (ℕ × ℕ) :=
  (b.mapIdx (fun i r => (r.mapIdx (fun j v =>
    if v then [] else [(i, j)])).flatMap id)).flatMap id

/-- `scipy.ndimage.distance_transform_edt` (external library): each nonzero
element is replaced by its Euclidean distance to the nearest zero element,
zero elements by 0.  Euclidean distances are square roots of naturals, so the
model records the exact squared distance; `none` stands for "no zero element
exists" (an infinite distance — scipy's output in that degenerate case is not
modelled, and no claim depends on it). -/
def edtSq (b : List (List Bool)) : List (List (Option ℕ)) :=
  b.mapIdx (fun i r => r.mapIdx (fun j v =>
    if v then
      ((zeroCoords b).map (fun p =>
        ((i : ℤ) - p.1).natAbs ^ 2 + ((j : ℤ) - p.2).natAbs ^ 2)).min?
    else some 0))

/-- `(d > .5) & (d < hw)` at one element, decided exactly on the squared
distance (`d > 1/2 ↔ d² > 1/4` and `d < hw ↔ d² < hw²`, since `d ≥ 0` and
`hw > 0` whenever this runs). -/
def bandMem (hw : ℚ) (dsq : Option ℕ) : Bool :=
  match dsq with
  | none => false        -- d = ∞: `d < hw` is false
  | some n => (mkRat 1 4 < mkRat n 1) && (mkRat n 1 < qmul hw hw)

/-- `(hw + .5 - d) / hw` at one element.  The exact distance `d` is the
square root of the recorded natural number; square roots of non-squares are
irrational, so the model takes the square-root function `sq : ℚ → ℚ` as a
parameter (applied to the squared distance).  At elements with no background
(`d = ∞`) the value is `-∞`. -/
def bandVal (sq : ℚ → ℚ) (hw : ℚ) (dsq : Option ℕ) : FV :=
  match dsq with
  | none => FV.ninf
  | some n => FV.fin (qdiv (qsub (qadd hw (mkRat 1 2)) (sq (mkRat n 1))) hw)

/-- Legacy numpy boolean-mask assignment `a[mask] = values` for one row:
the selected positions are filled from `values` in C order; `values` as used
here always holds at least as many elements as the mask selects (it is the
flattened full-size array), and numpy before 1.13 silently used the first
`k` of them (a `DeprecationWarning` then, an error in modern numpy). -/
def maskAssignRow : List FV → List Bool → List FV → (List FV × List FV)
  | [], _, vs => ([], vs)
  | x :: xs, [], vs =>
      let (r, rest) := maskAssignRow xs [] vs
      (x :: r, rest)
  | x :: xs, mb :: ms, vs =>
      if mb then
        match vs with
        | v :: vs' =>
            let (r, rest) := maskAssignRow xs ms vs'
            (v :: r, rest)
        | [] =>    -- cannot happen for a full-size value array
            let (r, rest) := maskAssignRow xs ms []
            (x :: r, rest)
      else
        let (r, rest) := maskAssignRow xs ms vs
        (x :: r, rest)

/-- Legacy numpy boolean-mask assignment `a[mask] = values` on a 2-D array
(rows in C order; see `maskAssignRow`). -/
def maskAssign : Mat → List (List Bool) → List FV → Mat
  | [], _, _ => []
  | r :: rs, ms, vs =>
      match ms with
      | m :: mrest =>
          let (r', vs') := maskAssignRow r m vs
          r' :: maskAssign rs mrest vs'
      | [] =>
          let (r', vs') := maskAssignRow r [] vs
          r' :: maskAssign rs [] vs'

/-- The outline alpha mask `lo` of one mask of an outline-mode layer
(cpfigure.py lines 1378-1385):
```
lo = cellprofiler.cpmath.outline.outline(labels) != 0
lo = lo.astype(float)
lw = float(cplabel[CPLD_LINE_WIDTH])
if lw > 1:
    # Alpha-blend for distances beyond 1
    hw = lw / 2
    d = distance_transform_edt(lo)
    lo[(d > .5) & (d < hw)] = (hw + .5 - d) / hw
```
Note that `distance_transform_edt` is applied to `lo` itself, so `d` is the
distance from each outline pixel to the nearest non-outline pixel (and 0 off
the outline), and the assignment rewrites outline pixels only.  The value
array `(hw + .5 - d) / hw` has the full image size while the mask selects
fewer elements, so the legacy truncating assignment applies. -/
def outlineAlphaMask (sq : ℚ → ℚ) (lw : ℚ) (labels : LabelMat) : Mat :=
  let lo := loFloat labels
  if 1 < lw then
    let hw := qdiv lw 2
    let dsq := edtSq (loBool labels)
    let mask := dsq.map (fun r => r.map (bandMem hw))
    let vals := (dsq.flatMap id).map (bandVal sq hw)
    maskAssign lo mask vals
  else
    lo

/-- `oc = np.array(cplabel[CPLD_OUTLINE_COLOR], float)[:3] / 255`.  Colors
with fewer than three components would fail to broadcast against the image
in the compositing line, so they are modelled as the numpy broadcast error. -/
def outlineColorE (c : List ℚ) : Except String (List ℚ) :=
  let oc := (c.take 3).map (fun x => qdiv x 255)
  if oc.length = 3 then .ok oc
  else .error "operands could not be broadcast together"

/-- One outline-mode mask composited over the image (cpfigure.py lines
1377-1387): `image = image * (1 - lo[:,:,None]) + lo[:,:,None] * oc[None,None,:]`.
The image has 3 channels at this point of the pipeline; other channel counts
fail to broadcast against the 3-vector `oc` (hence the error case). -/
def outlineApply (sq : ℚ → ℚ) (cpl : CPLabel) (nch : ℕ) (d : Vol)
    (labels : LabelMat) : Except String Vol := do
  let oc ← outlineColorE cpl.outline_color
  if nch = 3 then
    let lo := outlineAlphaMask sq cpl.line_width labels
    return d.mapIdx (fun i r => r.mapIdx (fun j p =>
      let a := (lo.getD i []).getD j (FV.fin 0)
      List.zipWith (fun v c =>
        FV.add (FV.mul v (FV.sub (FV.fin 1) a)) (FV.mul a (FV.fin c))) p oc))
  else
    .error "operands could not be broadcast together"

/-- Modelled from the spec: `renumber_labels_for_display` is imported from
`cpfigure_tools`, which is not part of this repository's sources.  Per §4.4:
"renumber each mask's labels to a compact, order-preserving sequence
(background stays 0; foreground ids become 1..count_of_distinct_nonzero_labels
in order of first appearance, or another stable renumbering)".  First
appearance is taken in numpy's C order. -/
def distinctLabels (m : LabelMat) : List ℕ :=
  ((m.flatMap id).filter (fun v => v ≠ 0)).dedup

def renumber_labels_for_display (m : LabelMat) : LabelMat :=
  m.map (fun r => r.map (fun v =>
    if v = 0 then 0 else (distinctLabels m).indexOf v + 1))

/-- One alpha-mode mask composited over the image (cpfigure.py lines
1389-1399):
```
lnumbers = renumber_labels_for_display(labels) + loffset
mappable = matplotlib.cm.ScalarMappable(cmap=cplabel[CPLD_ALPHA_COLORMAP])
mappable.set_clim(1, ltotal)
limage = mappable.to_rgba(lnumbers[labels!=0])[:,:3]
alpha = cplabel[CPLD_ALPHA_VALUE]
image[labels != 0, :] *= 1-alpha
image[labels != 0, :] += limage * alpha
```
The read and the two in-place writes select the same pixels in the same
order, so the model blends per pixel.  `limage` is a `(k, 3)` array; adding
it to a `(k, nch)` selection broadcasts only for `nch = 3` (the pipeline's
invariant), hence the error case. -/
def alphaApply (cpl : CPLabel) (nch : ℕ) (ltotal : ℕ) (loffset : ℕ)
    (d : Vol) (labels : LabelMat) : Except String Vol := do
  if nch = 3 then
    let lnum := renumber_labels_for_display labels
    return d.mapIdx (fun i r => r.mapIdx (fun j p =>
      if (labels.getD i []).getD j 0 ≠ 0 then
        let v := (lnum.getD i []).getD j 0 + loffset
        let color := scalarToRGB cpl.alpha_colormap (FV.fin 1)
          (FV.fin (mkRat ltotal 1)) (FV.fin (mkRat v 1))
        List.zipWith (fun pv c =>
          FV.add (FV.mul pv (FV.fin (qsub 1 cpl.alpha_value)))
                 (FV.mul c (FV.fin cpl.alpha_value))) p color
      else p))
  else
    .error "operands could not be broadcast together"

/-- The body of the inner `for labels in cplabel[CPLD_LABELS]` loop of
`normalize_image`: one mask rendered onto the image, with the running
`loffset` threaded in the accumulator's second component. -/
def segStep (sq : ℚ → ℚ) (cpl : CPLabel) (nch ltotal : ℕ)
    (acc : Vol × ℕ) (labels : LabelMat) : Except String (Vol × ℕ) := do
  let d' ← match cpl.mode with
    | .outlines => outlineApply sq cpl nch acc.1 labels
    | _ => alphaApply cpl nch ltotal acc.2 acc.1 labels
  let m ← npMaxNatE labels
  return (d', acc.2 + m)

/-- One `cplabel` layer applied to the (3-channel) image: the body of the
`for cplabel in kwargs['cplabels']` loop of `normalize_image` (cpfigure.py
lines 1368-1400), including the two skip guards and the running `loffset`. -/
def addSegmentation (sq : ℚ → ℚ) (img : ℕ × Vol) (cpl : CPLabel) :
    Except String (ℕ × Vol) := do
  if cpl.mode = CPLMode.none then
    return img
  let ltotal ← ltotalE cpl.labels
  if ltotal = 0 then
    return img
  let res ← cpl.labels.foldlM (segStep sq cpl img.1 ltotal) (img.2, 0)
  return (img.1, res.1)

/-- `CPFigureFrame.normalize_image` (cpfigure.py lines 1331-1401).  The
logarithm (`lg`) and square root (`sq`) are the abstract real functions
applied by `np.log` and `distance_transform_edt`. -/
structure NormKwargs where
  colormap : CMap             -- kwargs['colormap']
  normalize : NormMode        -- kwargs['normalize']
  vmin : Option ℚ             -- kwargs['vmin']
  vmax : Option ℚ             -- kwargs['vmax']
  rgb_mask : List ℚ           -- kwargs['rgb_mask']
  cplabels : List CPLabel     -- kwargs['cplabels']

def normalize_image (lg sq : ℚ → ℚ) (image : Img) (k : NormKwargs) :
    Except String Img := do
  -- `image = image.astype(np.float32)`: allocates a fresh array; the values
  -- are unchanged in the model (float32 rounding is not modelled).
  let image₁ ← contrastStage lg k.normalize image
  -- `if is_color_image(image): ...rgb mask...`
  let image₂ := if is_color_image image₁ then rgbMaskStage k.rgb_mask image₁
                else image₁
  -- `if not is_color_image(image): ...to_rgba...`
  let image₃ ← toRgbaStage k.colormap k.vmin k.vmax image₂
  -- `for cplabel in kwargs['cplabels']: ...`
  match image₃ with
  | .gray m => return Img.gray m   -- unreachable: image₃ is always 3-D
  | .color nch d => do
      let res ← k.cplabels.foldlM (addSegmentation sq) (nch, d)
      return Img.color res.1 res.2

/-! ## Mutation analysis of `normalize_image`

`normalize_image` receives a reference to the caller's array.  To verify that
the function never writes through that reference and returns a freshly
allocated array, the instrumented variant below threads, alongside the value
of the local name `image`, the contents of the caller's array and a flag
recording whether `image` still references the caller's array object.  The
per-step rules come from numpy's documented allocation behaviour:

* `ndarray.astype` (default `copy=True`), `np.dstack`, `np.zeros`,
  `ScalarMappable.to_rgba` and whole-array arithmetic expressions
  (`image * a + b`) allocate fresh arrays;
* `auto_contrast` copies its argument before any in-place update and returns
  the copy, so its result is always fresh;
* `log_transform` copies internally but its fallback path returns the
  argument object itself (`return orig`), preserving aliasing — the second
  component of `logTransformF` records exactly that path;
* augmented assignments (`image *= rgb_mask`,
  `image[labels != 0, :] *= ...`, `... += ...`) write in place through the
  current reference: when `image` still aliases the caller's array, the
  caller's contents change with it. -/

/-- The state threaded through the overlay loop of the instrumented
pipeline: the caller's array contents, the current (3-channel) image, and
whether `image` still references the caller's array. -/
structure TrSt where
  caller : Img
  nch : ℕ
  d : Vol
  al : Bool
  deriving DecidableEq

/-- Instrumented contrast step (see `contrastStage`): computes the same
image, plus whether the result still aliases the function argument. -/
def contrastStageTr (lg : ℚ → ℚ) (mode : NormMode) (image : Img) (al : Bool) :
    Except String (Img × Bool) := do
  match mode with
  | .raw => return (image, al)    -- no assignment to `image`
  | .norm => do
      -- auto_contrast returns a fresh copy; np.dstack allocates
      let r ← contrastStage lg .norm image
      return (r, false)
  | .log =>
      if is_color_image image then do
        -- np.dstack allocates a fresh array
        let r ← contrastStage lg .log image
        return (r, false)
      else
        match image with
        | .gray m =>
            -- log_transform's fallback path returns its argument itself
            return (Img.gray (log_transform lg m),
                    al && (logTransformF lg (flat2 m)).2)
        | .color nch d =>
            return (Img.color nch (log_transform3 lg d),
                    al && (logTransformF lg (flat3 d)).2)

/-- Instrumented channel-mask step (see `rgbMaskStage`): `image *= rgb_mask`
writes in place, so an aliased caller array receives the multiplied values;
the 2-channel `np.dstack` allocates a fresh array. -/
def rgbMaskStepTr (rgb_mask : List ℚ) (caller image : Img) (al : Bool) :
    Img × Img × Bool :=
  match image with
  | .gray m => (caller, .gray m, al)   -- unreachable under the color guard
  | .color nch d =>
      let d1 := rgbMaskMul rgb_mask nch d
      let caller' := if al then Img.color nch d1 else caller
      if nch = 2 then
        (caller', Img.color 3 (d1.map (fun r => r.map (fun p =>
          [p.getD 0 (FV.fin 0), p.getD 1 (FV.fin 0), FV.fin 0]))), false)
      else
        (caller', Img.color nch d1, al)

/-- Instrumented inner-loop body (see `segStep`): outline mode rebinds
`image` to a fresh array; alpha mode updates it in place — when `image`
still aliases the caller's array, the caller's contents change with it. -/
def segStepTr (sq : ℚ → ℚ) (cpl : CPLabel) (nch ltotal : ℕ)
    (acc : (Vol × ℕ) × Img × Bool) (labels : LabelMat) :
    Except String ((Vol × ℕ) × Img × Bool) := do
  match cpl.mode with
  | .outlines => do
      -- `image = image * (...) + (...)` rebinds `image` to a fresh array
      let d' ← outlineApply sq cpl nch acc.1.1 labels
      let m ← npMaxNatE labels
      return ((d', acc.1.2 + m), acc.2.1, false)
  | _ => do
      -- `image[labels != 0, :] *= ...` / `+= ...` write in place
      let d' ← alphaApply cpl nch ltotal acc.1.2 acc.1.1 labels
      let m ← npMaxNatE labels
      return ((d', acc.1.2 + m),
              if acc.2.2 then Img.color nch d' else acc.2.1, acc.2.2)

/-- Instrumented layer step (see `addSegmentation`). -/
def addSegmentationTr (sq : ℚ → ℚ) (st : TrSt) (cpl : CPLabel) :
    Except String TrSt := do
  if cpl.mode = CPLMode.none then
    return st
  let ltotal ← ltotalE cpl.labels
  if ltotal = 0 then
    return st
  let res ← cpl.labels.foldlM (segStepTr sq cpl st.nch ltotal)
    ((st.d, 0), st.caller, st.al)
  return ⟨res.2.1, st.nch, res.1.1, res.2.2⟩

/-- Instrumented `normalize_image`: returns the result, the caller's array
contents after the call, and whether the returned array is the caller's
array object. -/
def normalize_image_tr (lg sq : ℚ → ℚ) (caller : Img) (k : NormKwargs) :
    Except String (Img × Img × Bool) := do
  -- on entry the local `image` references the caller's array;
  -- `image = image.astype(np.float32)` immediately rebinds it to a fresh copy
  let p₁ ← contrastStageTr lg k.normalize caller false
  let p₂ := if is_color_image p₁.1 then rgbMaskStepTr k.rgb_mask caller p₁.1 p₁.2
            else (caller, p₁.1, p₁.2)
  let image₃ ← toRgbaStage k.colormap k.vmin k.vmax p₂.2.1
  let al₃ := if is_color_image p₂.2.1 then p₂.2.2 else false
  match image₃ with
  | .gray m => return (Img.gray m, p₂.1, al₃)   -- unreachable
  | .color nch d => do
      let res ← k.cplabels.foldlM (addSegmentationTr sq) ⟨p₂.1, nch, d, al₃⟩
      return (Img.color res.nch res.d, res.caller, res.al)

/-! ## Helper lemmas -/

theorem map2_id (m : Mat) : map2 id m = m := by
  simp [map2]

theorem map3_id (d : Vol) : map3 id d = d := by
  simp [map3]

theorem flat2_map2 (f : FV → FV) (m : Mat) :
    flat2 (map2 f m) = (flat2 m).map f := by
  induction m with
  | nil => rfl
  | cons r rs ih =>
      rw [show flat2 (map2 f (r :: rs)) = r.map f ++ flat2 (map2 f rs) from rfl,
          show flat2 (r :: rs) = r ++ flat2 rs from rfl,
          List.map_append, ih]

theorem flat2_cleanNaN (m : Mat) :
    flat2 (cleanNaN m) = (flat2 m).map cleanNaNv := by
  simp [cleanNaN, flat2_map2]

/-- `a ≤ b` forbids `b < a` (IEEE comparisons; vacuous when NaN makes
`le` false). -/
theorem FV.not_lt_of_le (a b : FV) (h : FV.le a b = true) :
    FV.lt b a = false := by
  cases a <;> cases b <;> simp_all [FV.le, FV.lt, FV.isNaN]
  all_goals
    rcases h with h | h
  all_goals
    exact h.le

/-- Claim C10 — the `np.prod(im.shape) == 0` guard of `auto_contrast`
precedes every reduction, so an empty array is returned unchanged (as a
fresh copy) with no `ValueError` raised. -/
theorem auto_contrast_empty_returns_input (im : Mat) (h : flat2 im = []) :
    auto_contrast im = .ok im := by
  simp only [auto_contrast, autoContrastF, h]
  simp [map2_id]
  rfl

/-- Witness for C10 at the concrete empty array `[[], []]` (two empty
rows). -/
theorem auto_contrast_empty_returns_input_witness :
    auto_contrast [([] : List FV), []] = .ok [[], []] :=
  auto_contrast_empty_returns_input [[], []] (by decide)

/-- Claim C3 — when the strictly-positive range that `log_transform` computes
on the NaN-zeroed array is degenerate (no positive values, no finite values,
or `max ≤ min`, or `max ≤ 0`), the original array is returned unchanged (the
internal `try/except` turns the empty-reduction `ValueError` into the same
fallback). -/
theorem log_transform_degenerate_returns_input (lg : ℚ → ℚ) (im : Mat)
    (h : ∀ mn mx,
      npMinE ((flat2 (cleanNaN im)).filter (fun v => FV.lt (FV.fin 0) v)) = .ok mn →
      npMaxE ((flat2 (cleanNaN im)).filter FV.isFinite) = .ok mx →
      FV.le mx mn = true ∨ FV.le mx (FV.fin 0) = true) :
    log_transform lg im = im := by
  rw [flat2_cleanNaN] at h
  simp only [log_transform, logTransformF]
  cases hp : ((flat2 im).map cleanNaNv).filter (fun v => FV.lt (FV.fin 0) v) with
  | nil => simp [map2_id]
  | cons p ps =>
    cases hf : ((flat2 im).map cleanNaNv).filter FV.isFinite with
    | nil => simp [map2_id]
    | cons f fs =>
      have hcond := h (ps.foldl FV.min2 p) (fs.foldl FV.max2 f)
        (by rw [hp]; rfl) (by rw [hf]; rfl)
      have hneg : ¬((FV.lt (ps.foldl FV.min2 p) (fs.foldl FV.max2 f) &&
          FV.lt (FV.fin 0) (fs.foldl FV.max2 f)) = true) := by
        intro hc
        rw [Bool.and_eq_true] at hc
        obtain ⟨h1, h2⟩ := hc
        rcases hcond with hle | hle
        · rw [FV.not_lt_of_le _ _ hle] at h1
          exact Bool.false_ne_true h1
        · rw [FV.not_lt_of_le _ _ hle] at h2
          exact Bool.false_ne_true h2
      have hb := Bool.eq_false_iff.mpr hneg
      simp only [hb]
      simp [map2_id]

/-- Witness for C3 at the constant array `[[2]]` (degenerate because
`max ≤ min`), with the identity as the abstract logarithm. -/
theorem log_transform_degenerate_returns_input_witness :
    log_transform id [[FV.fin 2]] = [[FV.fin 2]] :=
  log_transform_degenerate_returns_input id [[FV.fin 2]]
    (by
      intro mn mx h1 h2
      have e1 : (flat2 (cleanNaN [[FV.fin 2]])).filter
          (fun v => FV.lt (FV.fin 0) v) = [FV.fin 2] := by decide
      have e2 : (flat2 (cleanNaN [[FV.fin 2]])).filter FV.isFinite =
          [FV.fin 2] := by decide
      rw [e1] at h1
      rw [e2] at h2
      simp [npMinE] at h1
      simp [npMaxE] at h2
      subst h1
      subst h2
      left
      decide)

theorem foldl_max_zeros (xs : List ℕ) (h : ∀ v ∈ xs, v = 0) :
    xs.foldl Nat.max 0 = 0 := by
  induction xs with
  | nil => rfl
  | cons x t ih =>
      have hx : x = 0 := h x (List.mem_cons_self x t)
      have ht : ∀ v ∈ t, v = 0 := fun v hv => h v (List.mem_cons_of_mem _ hv)
      simp only [List.foldl_cons, hx, Nat.max_self]
      exact ih ht

theorem npMaxNatE_allzero (m : LabelMat) (hne : m.flatMap id ≠ [])
    (hz : ∀ v ∈ m.flatMap id, v = 0) : npMaxNatE m = .ok 0 := by
  unfold npMaxNatE
  cases hm : m.flatMap id with
  | nil => exact absurd hm hne
  | cons x xs =>
      have hx : x = 0 := hz x (by rw [hm]; exact List.mem_cons_self x xs)
      have hxs : ∀ v ∈ xs, v = 0 := fun v hv =>
        hz v (by rw [hm]; exact List.mem_cons_of_mem _ hv)
      subst hx
      show Except.ok (xs.foldl Nat.max 0) = Except.ok 0
      rw [foldl_max_zeros xs hxs]

theorem mapM_npMaxNatE_allzero (masks : List LabelMat)
    (h : ∀ m ∈ masks, m.flatMap id ≠ [] ∧ ∀ v ∈ m.flatMap id, v = 0) :
    masks.mapM npMaxNatE = .ok (List.replicate masks.length 0) := by
  induction masks with
  | nil => rfl
  | cons m ms ih =>
      have hm := h m (List.mem_cons_self m ms)
      have hms : ∀ m' ∈ ms, m'.flatMap id ≠ [] ∧ ∀ v ∈ m'.flatMap id, v = 0 :=
        fun m' hm' => h m' (List.mem_cons_of_mem _ hm')
      have h0 : npMaxNatE m = .ok 0 := npMaxNatE_allzero m hm.1 hm.2
      rw [List.mapM_cons, h0, ih hms]
      simp [List.replicate_succ]
      rfl

theorem ltotalE_allzero (masks : List LabelMat)
    (h : ∀ m ∈ masks, m.flatMap id ≠ [] ∧ ∀ v ∈ m.flatMap id, v = 0) :
    ltotalE masks = .ok 0 := by
  unfold ltotalE
  rw [mapM_npMaxNatE_allzero masks h]
  show Except.ok (List.replicate masks.length 0).sum = Except.ok 0
  simp

/-- Claim C7 — a label layer is skipped (the image is returned unchanged by
the overlay loop) when its display mode is `none`, or when its masks are all
zero everywhere, so that every mask's `np.max` is 0 and
`ltotal = sum(max(...)) = 0` (a mask must be non-empty for `np.max` to be
defined at all, which the claim's "sum of maxima is 0" gloss presupposes). -/
theorem overlay_skips_zero_and_none_layers (sq : ℚ → ℚ) (nch : ℕ) (d : Vol)
    (ls : List CPLabel)
    (h : ∀ cpl ∈ ls, cpl.mode = CPLMode.none ∨
      (∀ m ∈ cpl.labels, m.flatMap id ≠ [] ∧ ∀ v ∈ m.flatMap id, v = 0)) :
    ls.foldlM (addSegmentation sq) (nch, d) = .ok (nch, d) := by
  induction ls with
  | nil => rfl
  | cons cpl rest ih =>
      have hstep : addSegmentation sq (nch, d) cpl = .ok (nch, d) := by
        rcases h cpl (List.mem_cons_self cpl rest) with hmode | hzero
        · unfold addSegmentation
          rw [if_pos hmode]
          rfl
        · unfold addSegmentation
          by_cases hmode : cpl.mode = CPLMode.none
          · rw [if_pos hmode]
            rfl
          · rw [if_neg hmode]
            rw [ltotalE_allzero cpl.labels hzero]
            rfl
      rw [List.foldlM_cons, hstep]
      exact ih (fun c hc => h c (List.mem_cons_of_mem _ hc))

/-- Witness for C7: one all-zero alpha layer plus one `none`-mode layer over
a concrete 1×1 RGB image leave it unchanged. -/
theorem overlay_skips_zero_and_none_layers_witness :
    [({ labels := [[[0, 0], [0, 0]]], mode := CPLMode.alpha,
        outline_color := [255, 0, 0], line_width := 1,
        alpha_colormap := fun _ => ⟨0, 0, 0⟩, alpha_value := mkRat 6 10 } : CPLabel),
     { labels := [[[7]]], mode := CPLMode.none,
        outline_color := [0, 255, 0], line_width := 2,
        alpha_colormap := fun _ => ⟨1, 1, 1⟩, alpha_value := mkRat 1 2 }].foldlM
      (addSegmentation id) (3, [[[FV.fin 1, FV.fin 0, FV.fin 0]]]) =
    .ok (3, [[[FV.fin 1, FV.fin 0, FV.fin 0]]]) :=
  overlay_skips_zero_and_none_layers id 3 [[[FV.fin 1, FV.fin 0, FV.fin 0]]] _
    (by
      intro cpl hc
      simp only [List.mem_cons, List.not_mem_nil, or_false] at hc
      rcases hc with rfl | rfl
      · right
        decide
      · left
        rfl)

theorem match_rgbmask_two (rgb_mask : List ℚ) :
    match_rgbmask_to_image rgb_mask 2 =
      [(match_rgbmask_to_image rgb_mask 2).getD 0 1,
       (match_rgbmask_to_image rgb_mask 2).getD 1 1] := by
  match rgb_mask with
  | [] => rfl
  | [a] => rfl
  | a :: b :: t => simp [match_rgbmask_to_image]

/-- Claim C8 — the Channel Compositor on a (rectangular) 2-channel image
always produces a 3-channel image: the first two channels are the input
channels multiplied by the matched channel weights, the third is identically
zero. -/
theorem rgb_mask_two_channel_adds_zero_channel (rgb_mask : List ℚ) (d : Vol)
    (h : ∀ r ∈ d, ∀ p ∈ r, p.length = 2) :
    applyRgbMask rgb_mask 2 d =
      (3, d.map (fun r => r.map (fun p =>
        [FV.mul (p.getD 0 (FV.fin 0))
           (FV.fin ((match_rgbmask_to_image rgb_mask 2).getD 0 1)),
         FV.mul (p.getD 1 (FV.fin 0))
           (FV.fin ((match_rgbmask_to_image rgb_mask 2).getD 1 1)),
         FV.fin 0]))) := by
  obtain ⟨w0, w1, hm⟩ : ∃ w0 w1, match_rgbmask_to_image rgb_mask 2 = [w0, w1] :=
    ⟨_, _, match_rgbmask_two rgb_mask⟩
  simp only [applyRgbMask, rgbMaskMul, hm, if_pos, List.map_map]
  refine congrArg (Prod.mk 3) ?_
  apply List.map_congr_left
  intro r hr
  simp only [Function.comp]
  rw [List.map_map]
  apply List.map_congr_left
  intro p hp
  have hlen := h r hr p hp
  match p, hlen with
  | [a, b], _ => simp [List.zipWith]

/-- Witness for C8 at a concrete 1×1×2 image with channel weights
`[1, 1/2, 7]` (the excess entry is truncated away). -/
theorem rgb_mask_two_channel_adds_zero_channel_witness :
    applyRgbMask [1, mkRat 1 2, 7] 2 [[[FV.fin 4, FV.fin 6]]] =
      (3, [[[FV.fin 4, FV.fin 3, FV.fin 0]]]) := by
  rw [rgb_mask_two_channel_adds_zero_channel [1, mkRat 1 2, 7]
    [[[FV.fin 4, FV.fin 6]]] (by decide)]
  decide

/-! ## Claim C4: the `auto_contrast` stretch -/

/-- The `otherwise` branch exactly as claim C4 states it: subtract the
minimum, then divide by the resulting maximum — unconditionally (the code
guards the division with `if im.max() > 0`). -/
def autoContrastClaimedStretch (im : Mat) : Except String Mat := do
  let mn ← npMinE (flat2 im)
  let im1 := map2 (fun v => FV.sub v mn) im
  let mx1 ← npMaxE (flat2 im1)
  return map2 (fun v => FV.div v mx1) im1

/-- Counterexample to claim C4 as stated: `[[-inf, 0, 1]]` has a value (0)
strictly between its minimum (-inf) and maximum (1), yet `auto_contrast`
skips the division (the post-subtraction maximum is NaN, not `> 0`) and
returns `[[nan, +inf, +inf]]`, not the claimed unconditional
subtract-and-divide result `[[nan, nan, nan]]`. -/
theorem auto_contrast_claimC4_counterexample :
    (∃ mn mx, npMinE (flat2 [[FV.ninf, FV.fin 0, FV.fin 1]]) = .ok mn ∧
       npMaxE (flat2 [[FV.ninf, FV.fin 0, FV.fin 1]]) = .ok mx ∧
       (flat2 [[FV.ninf, FV.fin 0, FV.fin 1]]).any
         (fun v => FV.lt mn v && FV.lt v mx) = true) ∧
    auto_contrast [[FV.ninf, FV.fin 0, FV.fin 1]] =
      .ok [[FV.nan, FV.pinf, FV.pinf]] ∧
    autoContrastClaimedStretch [[FV.ninf, FV.fin 0, FV.fin 1]] =
      .ok [[FV.nan, FV.nan, FV.nan]] ∧
    auto_contrast [[FV.ninf, FV.fin 0, FV.fin 1]] ≠
      autoContrastClaimedStretch [[FV.ninf, FV.fin 0, FV.fin 1]] :=
  ⟨⟨FV.ninf, FV.fin 1, by decide, by decide, by decide⟩,
   by decide, by decide, by decide⟩

theorem FV.sub_fin (a b : ℚ) : FV.sub (FV.fin a) (FV.fin b) = FV.fin (a - b) := by
  simp [FV.sub, FV.add, FV.neg, qadd_eq]
  ring

/-- `foldl FV.min2` over finite values stays finite. -/
theorem foldl_min2_fin (xs : List FV) (a : ℚ)
    (h : ∀ v ∈ xs, v.isFinite = true) :
    ∃ q, xs.foldl FV.min2 (FV.fin a) = FV.fin q := by
  induction xs generalizing a with
  | nil => exact ⟨a, rfl⟩
  | cons v t ih =>
      have hv : v.isFinite = true := h v (List.mem_cons_self v t)
      have ht : ∀ u ∈ t, u.isFinite = true := fun u hu =>
        h u (List.mem_cons_of_mem _ hu)
      cases v with
      | fin b =>
          rw [List.foldl_cons]
          rw [show FV.min2 (FV.fin a) (FV.fin b) =
            FV.fin (if b < a then b else a) from by
              simp [FV.min2, FV.lt]
              split <;> rfl]
          exact ih _ ht
      | nan => simp [FV.isFinite] at hv
      | pinf => simp [FV.isFinite] at hv
      | ninf => simp [FV.isFinite] at hv

/-- `foldl FV.max2` over finite values is finite and bounds seed and
elements from above. -/
theorem foldl_max2_fin_ge (xs : List FV) (a : ℚ)
    (h : ∀ v ∈ xs, v.isFinite = true) :
    ∃ q, xs.foldl FV.max2 (FV.fin a) = FV.fin q ∧ a ≤ q ∧
      ∀ b, FV.fin b ∈ xs → b ≤ q := by
  induction xs generalizing a with
  | nil => exact ⟨a, rfl, le_refl a, by simp⟩
  | cons v t ih =>
      have hv : v.isFinite = true := h v (List.mem_cons_self v t)
      have ht : ∀ u ∈ t, u.isFinite = true := fun u hu =>
        h u (List.mem_cons_of_mem _ hu)
      cases v with
      | fin b =>
          rw [List.foldl_cons]
          rw [show FV.max2 (FV.fin a) (FV.fin b) =
            FV.fin (if a < b then b else a) from by
              simp [FV.max2, FV.lt]
              split <;> rfl]
          obtain ⟨q, hq, hle, hball⟩ := ih (if a < b then b else a) ht
          refine ⟨q, hq, ?_, ?_⟩
          · refine le_trans ?_ hle
            split
            · exact le_of_lt (by assumption)
            · exact le_refl a
          · intro c hc
            rcases List.mem_cons.mp hc with hc | hc
            · have hcb : c = b := by simpa using hc
              subst hcb
              refine le_trans ?_ hle
              split
              · exact le_refl c
              · exact le_of_not_lt (by assumption)
            · exact hball c hc
      | nan => simp [FV.isFinite] at hv
      | pinf => simp [FV.isFinite] at hv
      | ninf => simp [FV.isFinite] at hv

theorem except_bind_ok {α β : Type} (a : α) (f : α → Except String β) :
    (Except.ok a >>= f) = f a := rfl

theorem except_map_ok {α β : Type} (a : α) (f : α → β) :
    (f <$> (Except.ok a : Except String α)) = Except.ok (f a) := rfl

theorem autoContrastF_nil : autoContrastF [] = .ok id := rfl

/-- Evaluation of `autoContrastF` on a non-empty flattened array (all the
monadic plumbing reduced away). -/
theorem autoContrastF_cons (x : FV) (xs : List FV) :
    autoContrastF (x :: xs) =
      if ((x :: xs).any fun v =>
          FV.lt (xs.foldl FV.min2 x) v && FV.lt v (xs.foldl FV.max2 x)) = true
      then
        if FV.lt (FV.fin 0)
            ((xs.map (fun v => FV.sub v (xs.foldl FV.min2 x))).foldl FV.max2
              (FV.sub x (xs.foldl FV.min2 x))) = true then
          .ok (fun v => FV.div (FV.sub v (xs.foldl FV.min2 x))
            ((xs.map (fun u => FV.sub u (xs.foldl FV.min2 x))).foldl FV.max2
              (FV.sub x (xs.foldl FV.min2 x))))
        else .ok (fun v => FV.sub v (xs.foldl FV.min2 x))
      else .ok id := rfl

/-- Claim C4 (amended) — if no value of the array lies strictly between its
minimum and maximum, `auto_contrast` returns the input values unchanged;
otherwise it subtracts the minimum and divides by the resulting maximum
provided that maximum is strictly positive — which always holds when the
array's values are all finite; when non-finite values make the
post-subtraction maximum NaN (or non-positive), the division is skipped and
only the subtraction is applied. -/
theorem auto_contrast_amended (im : Mat) :
    ((∀ mn mx, npMinE (flat2 im) = .ok mn → npMaxE (flat2 im) = .ok mx →
        (flat2 im).any (fun v => FV.lt mn v && FV.lt v mx) = false) →
      auto_contrast im = .ok im) ∧
    (∀ mn mx, npMinE (flat2 im) = .ok mn → npMaxE (flat2 im) = .ok mx →
      (flat2 im).any (fun v => FV.lt mn v && FV.lt v mx) = true →
      ∃ mx1, npMaxE ((flat2 im).map (fun v => FV.sub v mn)) = .ok mx1 ∧
        auto_contrast im = .ok (if FV.lt (FV.fin 0) mx1 = true
          then map2 (fun v => FV.div (FV.sub v mn) mx1) im
          else map2 (fun v => FV.sub v mn) im) ∧
        ((∀ v ∈ flat2 im, v.isFinite = true) →
          FV.lt (FV.fin 0) mx1 = true)) := by
  constructor
  · intro hany
    cases hfl : flat2 im with
    | nil =>
        simp only [auto_contrast]
        rw [hfl, autoContrastF_nil, except_bind_ok, map2_id]
        rfl
    | cons x xs =>
        have ha := hany (xs.foldl FV.min2 x) (xs.foldl FV.max2 x)
          (by rw [hfl]; rfl) (by rw [hfl]; rfl)
        rw [hfl] at ha
        simp only [auto_contrast]
        rw [hfl, autoContrastF_cons, ha]
        rw [if_neg (by simp : ¬(false = true)), except_bind_ok, map2_id]
        rfl
  · intro mn mx hmn hmx hany
    cases hfl : flat2 im with
    | nil =>
        rw [hfl] at hmn
        exact absurd hmn (by simp [npMinE])
    | cons x xs =>
        rw [hfl] at hmn hmx hany
        have hmn' : xs.foldl FV.min2 x = mn := by
          have h' := hmn
          simp [npMinE] at h'
          exact h'
        have hmx' : xs.foldl FV.max2 x = mx := by
          have h' := hmx
          simp [npMaxE] at h'
          exact h'
        refine ⟨(xs.map (fun v => FV.sub v mn)).foldl FV.max2 (FV.sub x mn),
          rfl, ?_, ?_⟩
        · simp only [auto_contrast]
          rw [hfl, autoContrastF_cons, hmn', hmx', hany]
          rw [if_pos (rfl : true = true)]
          by_cases hc : FV.lt (FV.fin 0)
              ((xs.map (fun v => FV.sub v mn)).foldl FV.max2
                (FV.sub x mn)) = true
          · rw [if_pos hc, if_pos hc, except_bind_ok]
            rfl
          · rw [if_neg hc, if_neg hc, except_bind_ok]
            rfl
        · intro hfin
          have hxf : x.isFinite = true := hfin x (List.mem_cons_self x xs)
          have hxsf : ∀ v ∈ xs, v.isFinite = true := fun v hv =>
            hfin v (List.mem_cons_of_mem _ hv)
          cases x with
          | nan => simp [FV.isFinite] at hxf
          | pinf => simp [FV.isFinite] at hxf
          | ninf => simp [FV.isFinite] at hxf
          | fin qx =>
            obtain ⟨qmn, hqmn⟩ := foldl_min2_fin xs qx hxsf
            have hmnfin : mn = FV.fin qmn := by rw [← hmn', hqmn]
            obtain ⟨v, hvmem, hvp⟩ := List.any_eq_true.mp hany
            rw [Bool.and_eq_true] at hvp
            obtain ⟨hv1, _⟩ := hvp
            have hvf : v.isFinite = true := hfin v hvmem
            cases v with
            | nan => simp [FV.isFinite] at hvf
            | pinf => simp [FV.isFinite] at hvf
            | ninf => simp [FV.isFinite] at hvf
            | fin qv =>
              have hlt : qmn < qv := by
                rw [hmnfin] at hv1
                simpa [FV.lt] using hv1
              have hmapf : ∀ u ∈ xs.map (fun v => FV.sub v mn),
                  u.isFinite = true := by
                intro u hu
                obtain ⟨w, hw, hwu⟩ := List.mem_map.mp hu
                have hwf := hxsf w hw
                cases w with
                | nan => simp [FV.isFinite] at hwf
                | pinf => simp [FV.isFinite] at hwf
                | ninf => simp [FV.isFinite] at hwf
                | fin qw =>
                    rw [hmnfin] at hwu
                    rw [← hwu, FV.sub_fin]
                    rfl
              have hseed : FV.sub (FV.fin qx) mn = FV.fin (qx - qmn) := by
                rw [hmnfin, FV.sub_fin]
              obtain ⟨qM, hqM, hseedle, hball⟩ :=
                foldl_max2_fin_ge (xs.map (fun v => FV.sub v mn)) (qx - qmn)
                  hmapf
              rw [hseed, hqM]
              have hvsub : qv - qmn ≤ qM := by
                rcases List.mem_cons.mp hvmem with hvx | hvxs
                · have hevq : qv = qx := by simpa using hvx
                  subst hevq
                  exact hseedle
                · have hmem2 : FV.fin (qv - qmn) ∈
                      xs.map (fun v => FV.sub v mn) := by
                    refine List.mem_map.mpr ⟨FV.fin qv, hvxs, ?_⟩
                    rw [hmnfin, FV.sub_fin]
                  exact hball _ hmem2
              have hqMpos : (0 : ℚ) < qM := lt_of_lt_of_le (by linarith) hvsub
              simpa [FV.lt] using hqMpos

/-- Witness for the amended C4 at `[[1, 2, 5]]`: 2 lies strictly between the
extremes, so the array is stretched to `[[0, 1/4, 1]]` (the post-subtraction
maximum 4 is positive, so the division happens). -/
theorem auto_contrast_amended_witness :
    auto_contrast [[FV.fin 1, FV.fin 2, FV.fin 5]] =
      .ok [[FV.fin 0, FV.fin (mkRat 1 4), FV.fin 1]] := by
  obtain ⟨mx1, hmx1, heq, hfinpos⟩ :=
    (auto_contrast_amended [[FV.fin 1, FV.fin 2, FV.fin 5]]).2
      (FV.fin 1) (FV.fin 5) (by decide) (by decide) (by decide)
  have h4 : npMaxE ((flat2 [[FV.fin 1, FV.fin 2, FV.fin 5]]).map
      (fun v => FV.sub v (FV.fin 1))) = .ok (FV.fin 4) := by decide
  rw [h4] at hmx1
  have hmx1' : mx1 = FV.fin 4 := (Except.ok.inj hmx1).symm
  subst hmx1'
  rw [heq]
  decide

/-! ## Claim C6: non-finite handling in `log_transform` -/

/-- The cleaning step exactly as claim C6 words it: replace ALL non-finite
values (NaN, +inf, -inf) with 0. -/
def cleanNonfiniteV (v : FV) : FV := if v.isFinite then v else FV.fin 0

/-- `log_transform` as claim C6 describes it: zero all non-finite values
first, then compute the strictly-positive range and rescale exactly as the
code does. -/
def logTransformClaimC6F (lg : ℚ → ℚ) (flat : List FV) : (FV → FV) × Bool :=
  let flatC := flat.map cleanNonfiniteV
  match flatC.filter (fun v => FV.lt (FV.fin 0) v) with
  | [] => (id, true)
  | p :: ps =>
      match flatC.filter FV.isFinite with
      | [] => (id, true)
      | f :: fs =>
          let mn := ps.foldl FV.min2 p
          let mx := fs.foldl FV.max2 f
          if FV.lt mn mx && FV.lt (FV.fin 0) mx then
            match mn, mx with
            | FV.fin a, FV.fin b =>
                (fun v => logRescale lg a b (cleanNonfiniteV v), false)
            | _, _ => (id, true)
          else (id, true)

def log_transform_claimC6 (lg : ℚ → ℚ) (im : Mat) : Mat :=
  map2 (logTransformClaimC6F lg (flat2 im)).1 im

/-- Counterexample to claim C6 as stated: at `[[+inf, 1, 2]]` the code zeroes
only NaN, so +inf stays, is counted as a positive value (the positive minimum
becomes 1, not the 2 it would be after zeroing it — here both give min 1, but
the +inf entry is then clipped to the maximum and maps to 1), while the
claimed zero-all-non-finite transform maps that entry to 0: the outputs
differ at the first entry (1 vs 0). -/
theorem log_transform_claimC6_counterexample :
    log_transform id [[FV.pinf, FV.fin 1, FV.fin 2]] =
      [[FV.fin 1, FV.fin 0, FV.fin 1]] ∧
    log_transform_claimC6 id [[FV.pinf, FV.fin 1, FV.fin 2]] =
      [[FV.fin 0, FV.fin 0, FV.fin 1]] ∧
    log_transform id [[FV.pinf, FV.fin 1, FV.fin 2]] ≠
      log_transform_claimC6 id [[FV.pinf, FV.fin 1, FV.fin 2]] :=
  ⟨by decide, by decide, by decide⟩

theorem cleanNaNv_idem : (fun v => cleanNaNv (cleanNaNv v)) = cleanNaNv := by
  funext v
  cases v <;> rfl

theorem map2_map2 (f g : FV → FV) (m : Mat) :
    map2 f (map2 g m) = map2 (fun v => f (g v)) m := by
  simp [map2, List.map_map, Function.comp]

/-- Zeroing NaNs in the input does not change the elementwise transform that
`log_transform` selects (the scan itself zeroes NaNs on its copy first). -/
theorem logTransformF_cleanNaN (lg : ℚ → ℚ) (l : List FV) :
    logTransformF lg (l.map cleanNaNv) = logTransformF lg l := by
  unfold logTransformF
  rw [List.map_map, show cleanNaNv ∘ cleanNaNv = cleanNaNv from
    funext (fun v => by cases v <;> rfl)]

/-- Inversion: when `logTransformF` does not take a fallback path, the
selected elementwise function is a rescale of the NaN-zeroed value. -/
theorem logTransformF_snd_false_inv (lg : ℚ → ℚ) (l : List FV) :
    ∀ fn, logTransformF lg l = (fn, false) →
      ∃ a b, fn = fun v => logRescale lg a b (cleanNaNv v) := by
  simp only [logTransformF]
  cases (l.map cleanNaNv).filter (fun v => FV.lt (FV.fin 0) v) with
  | nil =>
      intro fn h
      have h2 : ((id : FV → FV), true) = (fn, false) := h
      injection h2 with h3 hb
      exact Bool.noConfusion hb
  | cons p ps =>
    cases (l.map cleanNaNv).filter FV.isFinite with
    | nil =>
        intro fn h
        have h2 : ((id : FV → FV), true) = (fn, false) := h
        injection h2 with h3 hb
        exact Bool.noConfusion hb
    | cons f fs =>
        intro fn h
        by_cases hc : (FV.lt (ps.foldl FV.min2 p) (fs.foldl FV.max2 f) &&
            FV.lt (FV.fin 0) (fs.foldl FV.max2 f)) = true
        · have h2 : (if (FV.lt (ps.foldl FV.min2 p) (fs.foldl FV.max2 f) &&
              FV.lt (FV.fin 0) (fs.foldl FV.max2 f)) = true then
                (match ps.foldl FV.min2 p, fs.foldl FV.max2 f with
                 | FV.fin a, FV.fin b =>
                     ((fun v => logRescale lg a b (cleanNaNv v) : FV → FV), false)
                 | _, _ => ((id : FV → FV), true))
              else ((id : FV → FV), true)) = (fn, false) := h
          rw [if_pos hc] at h2
          generalize ps.foldl FV.min2 p = mnv at h2
          generalize fs.foldl FV.max2 f = mxv at h2
          cases mnv <;> cases mxv <;>
            first
              | (have h3 : ((id : FV → FV), true) = (fn, false) := h2
                 injection h3 with h4 hb
                 exact Bool.noConfusion hb)
              | (rename_i a b
                 have h3 : ((fun v => logRescale lg a b (cleanNaNv v) :
                     FV → FV), false) = (fn, false) := h2
                 injection h3 with hf hb
                 exact ⟨a, b, hf.symm⟩)
        · have h2 : (if (FV.lt (ps.foldl FV.min2 p) (fs.foldl FV.max2 f) &&
              FV.lt (FV.fin 0) (fs.foldl FV.max2 f)) = true then
                (match ps.foldl FV.min2 p, fs.foldl FV.max2 f with
                 | FV.fin a, FV.fin b =>
                     ((fun v => logRescale lg a b (cleanNaNv v) : FV → FV), false)
                 | _, _ => ((id : FV → FV), true))
              else ((id : FV → FV), true)) = (fn, false) := h
          rw [if_neg hc] at h2
          injection h2 with h3 hb
          exact Bool.noConfusion hb

/-- Claim C6 (amended) — `log_transform` replaces exactly the NaN values
(not the infinities) with 0 before computing the strictly-positive range and
the rescale: on every input on which the rescale path is taken, the result
is unchanged when the input's NaNs are replaced by 0 beforehand.  (On the
fallback path the function returns its argument, so the two sides differ
exactly by the NaN-zeroing itself.) -/
theorem log_transform_zeroes_nan_only (lg : ℚ → ℚ) (im : Mat)
    (h : (logTransformF lg (flat2 im)).2 = false) :
    log_transform lg im = log_transform lg (cleanNaN im) := by
  obtain ⟨a, b, hfn⟩ := logTransformF_snd_false_inv lg (flat2 im)
    (logTransformF lg (flat2 im)).1
    (by rw [← h])
  unfold log_transform
  rw [flat2_cleanNaN, logTransformF_cleanNaN, hfn]
  unfold cleanNaN
  rw [map2_map2]
  congr 1
  funext v
  cases v <;> rfl

/-- Witness for the amended C6 at `[[nan, 1, 2]]` (the rescale path is
taken, and zeroing the NaN beforehand changes nothing). -/
theorem log_transform_zeroes_nan_only_witness :
    (logTransformF id (flat2 [[FV.nan, FV.fin 1, FV.fin 2]])).2 = false ∧
    log_transform id [[FV.nan, FV.fin 1, FV.fin 2]] =
      log_transform id (cleanNaN [[FV.nan, FV.fin 1, FV.fin 2]]) :=
  ⟨by decide, log_transform_zeroes_nan_only id _ (by decide)⟩

/-- Claim C9 — the 3×3 grayscale array `[[0,0,0],[0,5,0],[0,0,0]]` through
the pipeline with `normalize=True` (for which `subplot_imshow` fixes
`vmin, vmax = 0, 1`), any colormap and no label layers gives a 3×3×3 RGB
array whose center pixel is the colormap's maximum-value color `cmap 1` and
whose border pixels are its minimum-value color `cmap 0`.  (The array is
binary — no value lies strictly between 0 and 5 — so `auto_contrast` leaves
it unchanged and the center value 5 reaches the colormap clipped to the top
of the `[0, 1]` limits.) -/
theorem pipeline_3x3_normalized_grayscale (lg sq : ℚ → ℚ) (cmap : CMap) :
    normalize_image lg sq
      (Img.gray [[FV.fin 0, FV.fin 0, FV.fin 0],
                 [FV.fin 0, FV.fin 5, FV.fin 0],
                 [FV.fin 0, FV.fin 0, FV.fin 0]])
      { colormap := cmap, normalize := NormMode.norm, vmin := some 0,
        vmax := some 1, rgb_mask := [1, 1, 1], cplabels := [] } =
      .ok (Img.color 3
        [[(cmap 0).pix, (cmap 0).pix, (cmap 0).pix],
         [(cmap 0).pix, (cmap 1).pix, (cmap 0).pix],
         [(cmap 0).pix, (cmap 0).pix, (cmap 0).pix]]) := rfl

/-! ## Claim C1: the outline alpha mask -/

/-- A 5×5 label matrix holding one 3×3 block of object 1. -/
def labelsBlock3 : LabelMat :=
  [[0, 0, 0, 0, 0],
   [0, 1, 1, 1, 0],
   [0, 1, 1, 1, 0],
   [0, 1, 1, 1, 0],
   [0, 0, 0, 0, 0]]

/-- Claim C1 — evaluation of the outline alpha mask at the failing input
`labelsBlock3`.  With line width 1 the mask is the binary outline (the block
minus its interior pixel), matching the claim.  With line width 3 the claim
requires fractional alpha `(1.5 + 0.5 − d)/1.5 = 2/3` at pixels at distance
`d = 1` from the outline (e.g. (0,1) outside the block, or the block's
center (2,2)) and alpha 1 on the outline itself.  The code instead computes
`distance_transform_edt` of the outline mask itself, so only outline pixels
(all at squared distance 1 from the background, where `id` is the exact
square root) are selected, and legacy numpy's truncating boolean assignment
fills them with the first 8 values of the flattened value array — mostly
`(1.5 + 0.5 − 0)/1.5 = 4/3 > 1`, computed at background pixels.  Pixels off
the outline keep alpha 0: the coverage is never extended. -/
theorem outline_width3_failing_eval :
    outlineAlphaMask id 1 labelsBlock3 = loFloat labelsBlock3 ∧
    loFloat labelsBlock3 =
      [[FV.fin 0, FV.fin 0, FV.fin 0, FV.fin 0, FV.fin 0],
       [FV.fin 0, FV.fin 1, FV.fin 1, FV.fin 1, FV.fin 0],
       [FV.fin 0, FV.fin 1, FV.fin 0, FV.fin 1, FV.fin 0],
       [FV.fin 0, FV.fin 1, FV.fin 1, FV.fin 1, FV.fin 0],
       [FV.fin 0, FV.fin 0, FV.fin 0, FV.fin 0, FV.fin 0]] ∧
    outlineAlphaMask id 3 labelsBlock3 =
      [[FV.fin 0, FV.fin 0, FV.fin 0, FV.fin 0, FV.fin 0],
       [FV.fin 0, FV.fin (mkRat 4 3), FV.fin (mkRat 4 3),
        FV.fin (mkRat 4 3), FV.fin 0],
       [FV.fin 0, FV.fin (mkRat 4 3), FV.fin 0, FV.fin (mkRat 4 3), FV.fin 0],
       [FV.fin 0, FV.fin (mkRat 4 3), FV.fin (mkRat 2 3),
        FV.fin (mkRat 2 3), FV.fin 0],
       [FV.fin 0, FV.fin 0, FV.fin 0, FV.fin 0, FV.fin 0]] :=
  ⟨by decide, by decide, by decide⟩

/-! ## Claim C5: disjointness of alpha-overlay ids -/

/-- `np.max` of a label mask as a total function (equal to the value of
`npMaxNatE` on every non-empty mask, since labels are naturals). -/
def maskMax (m : LabelMat) : ℕ := (m.flatMap id).foldl Nat.max 0

/-- The running `loffset` before mask `k` of a layer: the sum of the maxima
of the prior masks. -/
def offsetBefore (masks : List LabelMat) (k : ℕ) : ℕ :=
  ((masks.take k).map maskMax).sum

/-- `ltotal` of a layer as a total function. -/
def layerTotal (masks : List LabelMat) : ℕ := (masks.map maskMax).sum

/-- The ids that mask `k` of an alpha layer feeds to the colormap: the values
`lnumbers[labels != 0]`, i.e. the renumbered label (`renumber_labels_for_
display` sends a nonzero value `v` to `indexOf v + 1` in the distinct-value
list) plus the running offset. -/
def alphaIdsUsed (masks : List LabelMat) (k : ℕ) : List ℕ :=
  (((masks.getD k []).flatMap id).filter (fun v => v ≠ 0)).map
    (fun v => (distinctLabels (masks.getD k [])).indexOf v + 1 +
      offsetBefore masks k)

theorem seed_le_foldl_max (l : List ℕ) (a : ℕ) : a ≤ l.foldl Nat.max a := by
  induction l generalizing a with
  | nil => exact le_refl a
  | cons x t ih => exact le_trans (Nat.le_max_left a x) (ih (Nat.max a x))

theorem mem_le_foldl_max (l : List ℕ) (a v : ℕ) (hv : v ∈ l) :
    v ≤ l.foldl Nat.max a := by
  induction l generalizing a with
  | nil => cases hv
  | cons x t ih =>
      rcases List.mem_cons.mp hv with rfl | hvt
      · exact le_trans (Nat.le_max_right a v) (seed_le_foldl_max t _)
      · exact ih _ hvt

/-- Distinct nonzero labels of a mask are at most `maskMax` many (they are
distinct naturals in `[1, maskMax]`). -/
theorem distinctLabels_length_le (m : LabelMat) :
    (distinctLabels m).length ≤ maskMax m := by
  have hnd : (distinctLabels m).Nodup := List.nodup_dedup _
  have hsub : (distinctLabels m).toFinset ⊆ Finset.Icc 1 (maskMax m) := by
    intro x hx
    rw [List.mem_toFinset] at hx
    have hx' : x ∈ (m.flatMap id).filter (fun v => v ≠ 0) :=
      List.mem_dedup.mp hx
    rw [List.mem_filter] at hx'
    obtain ⟨hmem, hne⟩ := hx'
    have hne' : x ≠ 0 := by simpa using hne
    rw [Finset.mem_Icc]
    exact ⟨Nat.one_le_iff_ne_zero.mpr hne', mem_le_foldl_max _ 0 x hmem⟩
  have hcard : (distinctLabels m).toFinset.card = (distinctLabels m).length :=
    List.toFinset_card_of_nodup hnd
  have := Finset.card_le_card hsub
  rw [hcard, Nat.card_Icc] at this
  simpa using this

/-- Bounds on the ids a mask uses: strictly above the running offset, and at
most the offset plus the mask's maximum. -/
theorem alphaIdsUsed_bounds (masks : List LabelMat) (k : ℕ) (a : ℕ)
    (ha : a ∈ alphaIdsUsed masks k) :
    offsetBefore masks k + 1 ≤ a ∧
    a ≤ offsetBefore masks k + maskMax (masks.getD k []) := by
  unfold alphaIdsUsed at ha
  obtain ⟨v, hv, hva⟩ := List.mem_map.mp ha
  rw [List.mem_filter] at hv
  obtain ⟨hvmem, hvne⟩ := hv
  have hvne' : v ≠ 0 := by simpa using hvne
  have hvd : v ∈ distinctLabels (masks.getD k []) := by
    unfold distinctLabels
    rw [List.mem_dedup, List.mem_filter]
    exact ⟨hvmem, by simpa using hvne'⟩
  have hidx : (distinctLabels (masks.getD k [])).indexOf v <
      (distinctLabels (masks.getD k [])).length :=
    List.indexOf_lt_length.mpr hvd
  constructor
  · omega
  · have h1 : (distinctLabels (masks.getD k [])).indexOf v + 1 ≤
        maskMax (masks.getD k []) :=
      le_trans hidx (distinctLabels_length_le _)
    omega

theorem offsetBefore_succ (masks : List LabelMat) (k : ℕ)
    (hk : k < masks.length) :
    offsetBefore masks (k + 1) =
      offsetBefore masks k + maskMax (masks.getD k []) := by
  unfold offsetBefore
  rw [List.take_succ]
  have hsome : masks[k]? = some (masks.getD k []) := by
    cases hg : masks[k]? with
    | none =>
        rw [List.getElem?_eq_none_iff] at hg
        omega
    | some x =>
        rw [List.getD_eq_getElem?_getD, hg]
        rfl
  rw [hsome]
  simp

theorem offsetBefore_mono (masks : List LabelMat) (j k : ℕ) (hjk : j ≤ k) :
    offsetBefore masks j ≤ offsetBefore masks k := by
  unfold offsetBefore
  have : masks.take k = masks.take j ++ (masks.drop j).take (k - j) := by
    rw [← List.take_add]
    congr 1
    omega
  rw [this, List.map_append, List.sum_append]
  exact Nat.le_add_right _ _

theorem offsetBefore_le_total (masks : List LabelMat) (k : ℕ)
    (hk : k ≤ masks.length) :
    offsetBefore masks k ≤ layerTotal masks := by
  have : layerTotal masks = offsetBefore masks masks.length := by
    unfold layerTotal offsetBefore
    rw [List.take_length]
  rw [this]
  exact offsetBefore_mono masks k masks.length hk

/-- Claim C5 — the colormap ids of distinct masks of one alpha layer never
collide: mask `j`'s ids lie in `(offset_j, offset_j + max_j]` and mask `k`'s
(for `j < k`) start strictly above `offset_k ≥ offset_j + max_j`; all ids lie
in `[1, ltotal]`. -/
theorem alpha_overlay_ids_disjoint (masks : List LabelMat) (j k : ℕ)
    (hjk : j < k) (hk : k < masks.length) :
    (∀ a ∈ alphaIdsUsed masks j, a ∉ alphaIdsUsed masks k) ∧
    (∀ i, i < masks.length → ∀ a ∈ alphaIdsUsed masks i,
      1 ≤ a ∧ a ≤ layerTotal masks) := by
  constructor
  · intro a haj hak
    obtain ⟨_, haj2⟩ := alphaIdsUsed_bounds masks j a haj
    obtain ⟨hak1, _⟩ := alphaIdsUsed_bounds masks k a hak
    have hj1 : offsetBefore masks j + maskMax (masks.getD j []) =
        offsetBefore masks (j + 1) :=
      (offsetBefore_succ masks j (lt_trans hjk hk)).symm
    have hm : offsetBefore masks (j + 1) ≤ offsetBefore masks k :=
      offsetBefore_mono masks (j + 1) k hjk
    omega
  · intro i hi a hai
    obtain ⟨h1, h2⟩ := alphaIdsUsed_bounds masks i a hai
    have hsucc : offsetBefore masks i + maskMax (masks.getD i []) =
        offsetBefore masks (i + 1) := (offsetBefore_succ masks i hi).symm
    have htot : offsetBefore masks (i + 1) ≤ layerTotal masks :=
      offsetBefore_le_total masks (i + 1) hi
    omega

/-- Witness for C5 at the two-mask layer `[[[2]], [[5]]]`: mask 0 uses id 1,
mask 1 uses id 3 (offset 2), disjoint and within `[1, 7]`. -/
theorem alpha_overlay_ids_disjoint_witness :
    (0 : ℕ) < 1 ∧ (1 : ℕ) < 2 ∧
    ((∀ a ∈ alphaIdsUsed [[[2]], [[5]]] 0, a ∉ alphaIdsUsed [[[2]], [[5]]] 1) ∧
     (∀ i, i < ([[[2]], [[5]]] : List LabelMat).length →
       ∀ a ∈ alphaIdsUsed [[[2]], [[5]]] i,
         1 ≤ a ∧ a ≤ layerTotal [[[2]], [[5]]])) :=
  ⟨by decide, by decide,
   alpha_overlay_ids_disjoint [[[2]], [[5]]] 0 1 (by decide) (by decide)⟩

/-! ## Claim C2: purity and non-mutation of `normalize_image` -/

theorem segStepTr_inv (sq : ℚ → ℚ) (cpl : CPLabel) (nch ltotal : ℕ)
    (c : Img) (a : Vol × ℕ) (labels : LabelMat) :
    segStepTr sq cpl nch ltotal (a, c, false) labels =
      (segStep sq cpl nch ltotal a labels).map (fun r => (r, c, false)) := by
  cases hm : cpl.mode with
  | outlines =>
      simp only [segStepTr, segStep, hm]
      cases h1 : outlineApply sq cpl nch a.1 labels with
      | error e => rfl
      | ok d' =>
          cases h2 : npMaxNatE labels with
          | error e => rfl
          | ok m => rfl
  | alpha =>
      simp only [segStepTr, segStep, hm]
      cases h1 : alphaApply cpl nch ltotal a.2 a.1 labels with
      | error e => rfl
      | ok d' =>
          cases h2 : npMaxNatE labels with
          | error e => rfl
          | ok m => rfl
  | none =>
      simp only [segStepTr, segStep, hm]
      cases h1 : alphaApply cpl nch ltotal a.2 a.1 labels with
      | error e => rfl
      | ok d' =>
          cases h2 : npMaxNatE labels with
          | error e => rfl
          | ok m => rfl

theorem foldMasks_tr_inv (sq : ℚ → ℚ) (cpl : CPLabel) (nch ltotal : ℕ)
    (c : Img) :
    ∀ (masks : List LabelMat) (a : Vol × ℕ),
      masks.foldlM (segStepTr sq cpl nch ltotal) (a, c, false) =
        (masks.foldlM (segStep sq cpl nch ltotal) a).map
          (fun r => (r, c, false)) := by
  intro masks
  induction masks with
  | nil => intro a; rfl
  | cons b t ih =>
      intro a
      rw [List.foldlM_cons, List.foldlM_cons, segStepTr_inv]
      cases hfa : segStep sq cpl nch ltotal a b with
      | error e => rfl
      | ok a' => exact ih a'

theorem addSegmentationTr_inv (sq : ℚ → ℚ) (c : Img) (nch : ℕ) (d : Vol)
    (cpl : CPLabel) :
    addSegmentationTr sq ⟨c, nch, d, false⟩ cpl =
      (addSegmentation sq (nch, d) cpl).map
        (fun r => (⟨c, r.1, r.2, false⟩ : TrSt)) := by
  simp only [addSegmentationTr, addSegmentation]
  by_cases hm0 : cpl.mode = CPLMode.none
  · simp only [if_pos hm0]
    rfl
  · simp only [if_neg hm0]
    cases hlt : ltotalE cpl.labels with
    | error e => rfl
    | ok t =>
        simp only [except_bind_ok]
        by_cases ht0 : t = 0
        · subst ht0
          rfl
        · simp only [if_neg ht0]
          rw [foldMasks_tr_inv]
          cases hfold : cpl.labels.foldlM (segStep sq cpl nch t) (d, 0) with
          | error e => rfl
          | ok r => rfl

theorem foldSeg_tr_inv (sq : ℚ → ℚ) (c : Img) :
    ∀ (ls : List CPLabel) (nch : ℕ) (d : Vol),
      ls.foldlM (addSegmentationTr sq) ⟨c, nch, d, false⟩ =
        (ls.foldlM (addSegmentation sq) (nch, d)).map
          (fun r => (⟨c, r.1, r.2, false⟩ : TrSt)) := by
  intro ls
  induction ls with
  | nil => intro nch d; rfl
  | cons cpl t ih =>
      intro nch d
      rw [List.foldlM_cons, List.foldlM_cons, addSegmentationTr_inv]
      cases h : addSegmentation sq (nch, d) cpl with
      | error e => rfl
      | ok r => exact ih r.1 r.2

theorem contrastStageTr_inv (lg : ℚ → ℚ) (mode : NormMode) (img : Img) :
    contrastStageTr lg mode img false =
      (contrastStage lg mode img).map (fun r => (r, false)) := by
  cases mode with
  | raw => rfl
  | norm =>
      simp only [contrastStageTr]
      cases h : contrastStage lg NormMode.norm img with
      | error e => rfl
      | ok r => rfl
  | log =>
      by_cases hc : is_color_image img = true
      · simp only [contrastStageTr, if_pos hc]
        cases h : contrastStage lg NormMode.log img with
        | error e => rfl
        | ok r => rfl
      · cases img with
        | gray m => rfl
        | color nch dd =>
            simp only [contrastStageTr, contrastStage, if_neg hc]
            rfl

theorem rgbMaskStepTr_inv (rgb_mask : List ℚ) (c img : Img) :
    rgbMaskStepTr rgb_mask c img false =
      (c, rgbMaskStage rgb_mask img, false) := by
  cases img with
  | gray m => rfl
  | color nch d =>
      simp only [rgbMaskStepTr, rgbMaskStage, applyRgbMask]
      by_cases h2 : nch = 2
      · subst h2
        rfl
      · simp only [if_neg h2]
        rfl

/-- Claim C2 — `normalize_image` is pure and never mutates the caller's
array.  The instrumented pipeline (which threads the caller's array contents
and an aliasing flag through every in-place numpy operation) computes exactly
the pure result, leaves the caller's array contents unchanged, and returns an
array that does not alias the caller's (`image.astype(np.float32)` rebinds
`image` to a fresh copy before any write).  Determinism follows: the result
is a function of the call's inputs alone, and a second invocation starts
from the same, untouched caller array. -/
theorem normalize_image_pure_no_mutation (lg sq : ℚ → ℚ) (image : Img)
    (k : NormKwargs) :
    normalize_image_tr lg sq image k =
      (normalize_image lg sq image k).map (fun r => (r, image, false)) := by
  simp only [normalize_image_tr, normalize_image]
  rw [contrastStageTr_inv]
  cases h1 : contrastStage lg k.normalize image with
  | error e => rfl
  | ok img1 =>
      simp only [except_bind_ok, Except.map]
      by_cases hc : is_color_image img1 = true
      · simp only [if_pos hc, rgbMaskStepTr_inv]
        cases h2 : toRgbaStage k.colormap k.vmin k.vmax
            (rgbMaskStage k.rgb_mask img1) with
        | error e => rfl
        | ok img3 =>
            simp only [except_bind_ok, ite_self]
            cases img3 with
            | gray m => rfl
            | color nch d =>
                show (do
                    let res ← List.foldlM (addSegmentationTr sq)
                      (⟨image, nch, d, false⟩ : TrSt) k.cplabels
                    pure (Img.color res.nch res.d, res.caller, res.al) :
                      Except String (Img × Img × Bool)) =
                  Except.map (fun r => (r, image, false))
                    (do
                      let res ← List.foldlM (addSegmentation sq) (nch, d)
                        k.cplabels
                      pure (Img.color res.1 res.2))
                rw [foldSeg_tr_inv]
                cases h3 : k.cplabels.foldlM (addSegmentation sq) (nch, d) with
                | error e => rfl
                | ok r => rfl
      · simp only [if_neg hc]
        cases h2 : toRgbaStage k.colormap k.vmin k.vmax img1 with
        | error e => rfl
        | ok img3 =>
            simp only [except_bind_ok, ite_self]
            cases img3 with
            | gray m => rfl
            | color nch d =>
                show (do
                    let res ← List.foldlM (addSegmentationTr sq)
                      (⟨image, nch, d, false⟩ : TrSt) k.cplabels
                    pure (Img.color res.nch res.d, res.caller, res.al) :
                      Except String (Img × Img × Bool)) =
                  Except.map (fun r => (r, image, false))
                    (do
                      let res ← List.foldlM (addSegmentation sq) (nch, d)
                        k.cplabels
                      pure (Img.color res.1 res.2))
                rw [foldSeg_tr_inv]
                cases h3 : k.cplabels.foldlM (addSegmentation sq) (nch, d) with
                | error e => rfl
                | ok r => rfl
